import Mathlib

/-!
# Verification of MatOllama's streaming response processor

A shallow embedding of the streaming core of `src/MatOllama.py`:

* `ThinkingProcessor` (source lines 312–371) — the reasoning/visible splitter;
* the pull/push/create streaming progress loops (source lines 65–240);
* `OllamaClient.chat_stream` (source lines 261–299);
* `CLI._send_message` (source lines 1409–1492) — the chat session loop;
* the session history save/load round trip (source lines 1293–1364).

Text is modelled as `List Char` (Python `str`); decoded JSON lines are modelled
as structures whose optional fields mirror key presence in the decoded dict.
-/

namespace MatOllama

/-! ## Reasoning/visible splitter (`ThinkingProcessor`) -/

/-- The literal open tag `"<think>"` (source line 333). -/
def openTagL : List Char := ['<', 't', 'h', 'i', 'n', 'k', '>']

/-- The literal close tag `"</think>"` (source line 344). -/
def closeTagL : List Char := ['<', '/', 't', 'h', 'i', 'n', 'k', '>']

/-- Python `processed.find(tag, i)` followed by the slicing the loop performs:
the text before the first occurrence of `tag` and the text after it, or `none`
when `tag` does not occur. -/
def findTag (tag : List Char) : List Char → Option (List Char × List Char)
  | [] => if tag = [] then some ([], []) else none
  | c :: rest =>
    if tag.isPrefixOf (c :: rest) then some ([], (c :: rest).drop tag.length)
    else
      match findTag tag rest with
      | some (pre, post) => some (c :: pre, post)
      | none => none

/-- Bridge between the boolean `List.isPrefixOf` and the prefix order. -/
theorem isPrefixOf_true_iff {l1 l2 : List Char} :
    l1.isPrefixOf l2 = true ↔ l1 <+: l2 := by
  induction l1 generalizing l2 with
  | nil => simp [List.isPrefixOf]
  | cons a t ih =>
    cases l2 with
    | nil => simp [List.isPrefixOf]
    | cons b t2 => simp [List.isPrefixOf, List.cons_prefix_cons, ih, beq_iff_eq]

theorem findTag_some_eq {tag l pre post : List Char}
    (h : findTag tag l = some (pre, post)) : l = pre ++ tag ++ post := by
  induction l generalizing pre post with
  | nil =>
    by_cases htag : tag = []
    · simp [findTag, htag] at h
      obtain ⟨h1, h2⟩ := h
      subst h1; subst h2
      simp [htag]
    · simp [findTag, htag] at h
  | cons c rest ih =>
    by_cases hp : tag.isPrefixOf (c :: rest)
    · rw [findTag, if_pos hp] at h
      obtain ⟨t, ht⟩ := isPrefixOf_true_iff.mp hp
      obtain ⟨hpre, hpost⟩ : pre = [] ∧ (c :: rest).drop tag.length = post := by
        constructor
        · exact (Prod.mk.injEq _ _ _ _ ▸ (Option.some.injEq _ _ ▸ h)).1.symm
        · exact (Prod.mk.injEq _ _ _ _ ▸ (Option.some.injEq _ _ ▸ h)).2
      subst hpre
      rw [← ht, ← hpost, ← ht]
      simp
    · rw [findTag, if_neg hp] at h
      cases hrec : findTag tag rest with
      | none => rw [hrec] at h; exact absurd h (by simp)
      | some pq =>
        obtain ⟨p, q⟩ := pq
        rw [hrec] at h
        simp only [Option.some.injEq, Prod.mk.injEq] at h
        obtain ⟨hpre, hpost⟩ := h
        subst hpre hpost
        have := ih hrec
        simp [this]

theorem findTag_lt {tag l pre post : List Char} (htag : tag ≠ [])
    (h : findTag tag l = some (pre, post)) : post.length < l.length := by
  have h1 := congrArg List.length (findTag_some_eq h)
  simp [List.length_append] at h1
  have htl : 1 ≤ tag.length := by
    cases tag with
    | nil => exact absurd rfl htag
    | cons a t => simp
  omega

/-- State of the `ThinkingProcessor` class (source lines 312–318). -/
structure TPState where
  thinking_active : Bool
  buffer : List Char
  thinking_content : List Char
  visible_content : List Char
  complete_thinking : List Char
  deriving DecidableEq, Repr

/-- The constructor / `reset` state: every field cleared (lines 313–318, 366–371). -/
def initTP : TPState := ⟨false, [], [], [], []⟩

/-- `ThinkingProcessor.reset` (source lines 366–371). -/
def tpDoReset (_s : TPState) : TPState := initTP

/-- The per-call outputs of `process_chunk`: the 4-tuple
`(new_thinking, new_visible, started, finished)` returned at line 358. -/
structure ChunkResult where
  new_thinking : List Char
  new_visible : List Char
  started : Bool
  finished : Bool
  deriving DecidableEq, Repr

/-- The `while i < len(processed)` loop of `process_chunk`
(source lines 330–355), expressed as recursion on the unconsumed text.
When the state is outside a reasoning block it scans for `"<think>"`;
inside one it scans for `"</think>"`. -/
def tpLoop (s : TPState) (nt nv : List Char) (started finished : Bool)
    (text : List Char) : TPState × ChunkResult :=
  if s.thinking_active = false then
    match h : findTag openTagL text with
    | none => (s, ⟨nt, nv ++ text, started, finished⟩)
    | some (pre, post) =>
      tpLoop { s with thinking_active := true, thinking_content := [] }
        nt (nv ++ pre) true finished post
  else
    match h : findTag closeTagL text with
    | none =>
      ({ s with thinking_content := s.thinking_content ++ text },
        ⟨nt ++ text, nv, started, finished⟩)
    | some (pre, post) =>
      tpLoop { s with thinking_active := false,
                      thinking_content := s.thinking_content ++ pre,
                      complete_thinking := s.thinking_content ++ pre }
        (nt ++ pre) nv started true post
  termination_by text.length
  decreasing_by
  · exact findTag_lt (by decide) h
  · exact findTag_lt (by decide) h

/-- `ThinkingProcessor.process_chunk` (source lines 320–358): prepend the (always
empty, see `c9`) buffer, clear it, run the scanning loop, then flush
`new_visible` into `visible_content` (line 357). -/
def process_chunk (s : TPState) (chunk : List Char) : TPState × ChunkResult :=
  let processed := s.buffer ++ chunk
  let p := tpLoop { s with buffer := [] } [] [] false false processed
  ({ p.1 with visible_content := p.1.visible_content ++ p.2.new_visible }, p.2)

/-- `ThinkingProcessor.get_display_content` (source lines 360–361). -/
def get_display_content (s : TPState) : List Char := s.visible_content

/-- `ThinkingProcessor.get_complete_thinking` (source lines 363–364). -/
def get_complete_thinking (s : TPState) : List Char := s.complete_thinking

/-- Feed a sequence of fragments through `process_chunk`, keeping the state. -/
def feedAll (s : TPState) (frags : List (List Char)) : TPState :=
  frags.foldl (fun st f => (process_chunk st f).1) s

/-! ### Basic facts about `findTag` -/

theorem findTag_none_of_not_mem {c : Char} {t l : List Char} (hc : c ∉ l) :
    findTag (c :: t) l = none := by
  induction l with
  | nil => simp [findTag]
  | cons d rest ih =>
    have hcd : c ≠ d := fun h => hc (h ▸ List.mem_cons_self d rest)
    have hcr : c ∉ rest := fun h => hc (List.mem_cons_of_mem d h)
    have hp : ¬ (c :: t).isPrefixOf (d :: rest) := by
      intro hpp
      have := isPrefixOf_true_iff.mp hpp
      rw [List.cons_prefix_cons] at this
      exact hcd this.1
    rw [findTag, if_neg hp, ih hcr]

theorem findTag_first {c : Char} {t x y : List Char} (hx : c ∉ x) :
    findTag (c :: t) (x ++ (c :: t) ++ y) = some (x, y) := by
  induction x with
  | nil =>
    simp only [List.nil_append]
    rw [List.cons_append, findTag]
    have hp : (c :: t).isPrefixOf (c :: (t ++ y)) := by
      rw [isPrefixOf_true_iff]
      exact (List.cons_prefix_cons).mpr ⟨rfl, List.prefix_append t y⟩
    rw [if_pos hp]
    simp [List.drop_left']
  | cons d x' ih =>
    have hcd : c ≠ d := fun h => hx (h ▸ List.mem_cons_self d x')
    have hcx : c ∉ x' := fun h => hx (List.mem_cons_of_mem d h)
    have hp : ¬ (c :: t).isPrefixOf (d :: (x' ++ (c :: t) ++ y)) := by
      intro hpp
      have := isPrefixOf_true_iff.mp hpp
      rw [List.cons_prefix_cons] at this
      exact hcd this.1
    rw [List.cons_append, List.cons_append, findTag, if_neg hp, ih hcx]

theorem findTag_open_first {x y : List Char} (hx : '<' ∉ x) :
    findTag openTagL (x ++ openTagL ++ y) = some (x, y) :=
  findTag_first hx

theorem findTag_close_first {x y : List Char} (hx : '<' ∉ x) :
    findTag closeTagL (x ++ closeTagL ++ y) = some (x, y) :=
  findTag_first hx

theorem findTag_open_none {l : List Char} (hl : '<' ∉ l) :
    findTag openTagL l = none :=
  findTag_none_of_not_mem hl

/-! ### Unfolding lemmas for the scanning loop -/

theorem tpLoop_inactive_none {s : TPState} {nt nv text : List Char}
    {st fn : Bool} (hs : s.thinking_active = false)
    (h : findTag openTagL text = none) :
    tpLoop s nt nv st fn text = (s, ⟨nt, nv ++ text, st, fn⟩) := by
  rw [tpLoop.eq_def]
  simp only [hs, reduceIte]
  split
  · rfl
  · rename_i pre post heq
    rw [h] at heq
    simp at heq

theorem tpLoop_inactive_some {s : TPState} {nt nv text pre post : List Char}
    {st fn : Bool} (hs : s.thinking_active = false)
    (h : findTag openTagL text = some (pre, post)) :
    tpLoop s nt nv st fn text =
      tpLoop { s with thinking_active := true, thinking_content := [] }
        nt (nv ++ pre) true fn post := by
  rw [tpLoop.eq_def]
  simp only [hs, reduceIte]
  split
  · rename_i heq
    rw [h] at heq
    simp at heq
  · rename_i pre' post' heq
    rw [h] at heq
    simp only [Option.some.injEq, Prod.mk.injEq] at heq
    obtain ⟨h1, h2⟩ := heq
    subst h1; subst h2
    rfl

theorem tpLoop_active_none {s : TPState} {nt nv text : List Char}
    {st fn : Bool} (hs : s.thinking_active = true)
    (h : findTag closeTagL text = none) :
    tpLoop s nt nv st fn text =
      ({ s with thinking_content := s.thinking_content ++ text },
        ⟨nt ++ text, nv, st, fn⟩) := by
  rw [tpLoop.eq_def]
  simp only [hs, Bool.true_eq_false, reduceIte]
  split
  · rfl
  · rename_i pre post heq
    rw [h] at heq
    simp at heq

theorem tpLoop_active_some {s : TPState} {nt nv text pre post : List Char}
    {st fn : Bool} (hs : s.thinking_active = true)
    (h : findTag closeTagL text = some (pre, post)) :
    tpLoop s nt nv st fn text =
      tpLoop { s with thinking_active := false,
                      thinking_content := s.thinking_content ++ pre,
                      complete_thinking := s.thinking_content ++ pre }
        (nt ++ pre) nv st true post := by
  rw [tpLoop.eq_def]
  simp only [hs, Bool.true_eq_false, reduceIte]
  split
  · rename_i heq
    rw [h] at heq
    simp at heq
  · rename_i pre' post' heq
    rw [h] at heq
    simp only [Option.some.injEq, Prod.mk.injEq] at heq
    obtain ⟨h1, h2⟩ := heq
    subst h1; subst h2
    rfl

/-- One complete `v <think> r </think>` block consumed by the loop. -/
theorem tpLoop_block {s : TPState} {nt nv v r rest : List Char} {st fn : Bool}
    (hs : s.thinking_active = false) (hv : '<' ∉ v) (hr : '<' ∉ r) :
    tpLoop s nt nv st fn (v ++ openTagL ++ r ++ closeTagL ++ rest) =
      tpLoop { s with thinking_active := false, thinking_content := r,
                      complete_thinking := r }
        (nt ++ r) (nv ++ v) true true rest := by
  have hassoc : (v ++ openTagL ++ r ++ closeTagL ++ rest : List Char)
      = v ++ openTagL ++ (r ++ closeTagL ++ rest) := by
    simp [List.append_assoc]
  rw [hassoc,
    tpLoop_inactive_some hs (findTag_open_first hv),
    tpLoop_active_some (by simp) (findTag_close_first hr)]
  simp

/-- `process_chunk` on a tag-free chunk (with empty carried buffer):
full passthrough to visible output. -/
theorem process_chunk_no_open {s : TPState} {chunk : List Char}
    (hs : s.thinking_active = false)
    (h : findTag openTagL (s.buffer ++ chunk) = none) :
    process_chunk s chunk =
      ({ s with buffer := [],
                visible_content := s.visible_content ++ (s.buffer ++ chunk) },
        ⟨[], s.buffer ++ chunk, false, false⟩) := by
  unfold process_chunk
  dsimp only
  rw [tpLoop_inactive_none (by simp [hs]) h]
  simp

/-- `process_chunk` on a chunk that is exactly one visible/reasoning block
followed by tag-free text. -/
theorem process_chunk_one_block {s : TPState} {v r rest : List Char}
    (hs : s.thinking_active = false) (hb : s.buffer = [])
    (hv : '<' ∉ v) (hr : '<' ∉ r) (hrest : '<' ∉ rest) :
    process_chunk s (v ++ openTagL ++ r ++ closeTagL ++ rest) =
      ({ s with buffer := [], thinking_active := false, thinking_content := r,
                complete_thinking := r,
                visible_content := s.visible_content ++ (v ++ rest) },
        ⟨r, v ++ rest, true, true⟩) := by
  unfold process_chunk
  dsimp only
  rw [hb]
  simp only [List.nil_append]
  rw [tpLoop_block (by simp [hs]) hv hr,
    tpLoop_inactive_none (by simp) (findTag_open_none hrest)]
  simp

theorem feedAll_nil {s : TPState} : feedAll s [] = s := rfl

theorem feedAll_cons {s : TPState} {c : List Char} {cs : List (List Char)} :
    feedAll s (c :: cs) = feedAll (process_chunk s c).1 cs := rfl

/-- The scanning loop never writes to `buffer` (only `process_chunk` line 328
touches it, clearing it before the loop runs). -/
theorem tpLoop_buffer_aux :
    ∀ (n : Nat) (text : List Char), text.length ≤ n →
    ∀ (s : TPState) (nt nv : List Char) (st fn : Bool),
      ((tpLoop s nt nv st fn text).1).buffer = s.buffer := by
  intro n
  induction n with
  | zero =>
    intro text hlen s nt nv st fn
    have htext : text = [] := List.length_eq_zero.mp (Nat.le_zero.mp hlen)
    subst htext
    by_cases hs : s.thinking_active = false
    · rw [tpLoop_inactive_none hs (by decide)]
    · have hs' : s.thinking_active = true := by
        revert hs; cases s.thinking_active <;> simp
      rw [tpLoop_active_none hs' (by decide)]
  | succ n ih =>
    intro text hlen s nt nv st fn
    by_cases hs : s.thinking_active = false
    · cases h : findTag openTagL text with
      | none => rw [tpLoop_inactive_none hs h]
      | some pq =>
        obtain ⟨pre, post⟩ := pq
        rw [tpLoop_inactive_some hs h]
        have hlt := @findTag_lt openTagL _ _ _ (by decide) h
        rw [ih post (by omega)]
    · have hs' : s.thinking_active = true := by
        revert hs; cases s.thinking_active <;> simp
      cases h : findTag closeTagL text with
      | none => rw [tpLoop_active_none hs' h]
      | some pq =>
        obtain ⟨pre, post⟩ := pq
        rw [tpLoop_active_some hs' h]
        have hlt := @findTag_lt closeTagL _ _ _ (by decide) h
        rw [ih post (by omega)]

theorem process_chunk_buffer (s : TPState) (chunk : List Char) :
    ((process_chunk s chunk).1).buffer = [] := by
  unfold process_chunk
  dsimp only
  have h2 := tpLoop_buffer_aux (s.buffer ++ chunk).length (s.buffer ++ chunk)
    le_rfl { s with buffer := [] } [] [] false false
  simpa using h2

/-! ## Claims about the splitter -/

/-- **C5** (confirmed): feeding the single fragment `"A<think>B</think>C"` to a
freshly reset splitter yields `visibleText = "AC"` and `reasoningText = "B"`:
text outside the tags goes to visible output, text between them to reasoning,
and neither delimiter appears in either output. -/
theorem c5_single_fragment_split :
    get_display_content ((process_chunk initTP
      ['A', '<', 't', 'h', 'i', 'n', 'k', '>', 'B',
       '<', '/', 't', 'h', 'i', 'n', 'k', '>', 'C']).1) = ['A', 'C'] ∧
    get_complete_thinking ((process_chunk initTP
      ['A', '<', 't', 'h', 'i', 'n', 'k', '>', 'B',
       '<', '/', 't', 'h', 'i', 'n', 'k', '>', 'C']).1) = ['B'] := by
  have hdec : (['A', '<', 't', 'h', 'i', 'n', 'k', '>', 'B',
       '<', '/', 't', 'h', 'i', 'n', 'k', '>', 'C'] : List Char)
      = ['A'] ++ openTagL ++ ['B'] ++ closeTagL ++ ['C'] := rfl
  rw [hdec, process_chunk_one_block rfl rfl (by decide) (by decide) (by decide)]
  constructor <;> rfl

/-- **C3 counterexample**: feeding `"A<th"` then `"ink>B</think>C"` does NOT
yield the same final visible text as the single-fragment case: `process_chunk`
(source lines 320–358) never retains a tail of the working text in `buffer`,
so the open tag split across the fragment boundary is never recognised and
the whole turn flows to visible output. -/
theorem c3_boundary_split_counterexample :
    get_display_content (feedAll initTP
      [['A', '<', 't', 'h'],
       ['i', 'n', 'k', '>', 'B', '<', '/', 't', 'h', 'i', 'n', 'k', '>', 'C']]) ≠
    get_display_content ((process_chunk initTP
      ['A', '<', 't', 'h', 'i', 'n', 'k', '>', 'B',
       '<', '/', 't', 'h', 'i', 'n', 'k', '>', 'C']).1) := by
  have e1 := @process_chunk_no_open initTP ['A', '<', 't', 'h']
    rfl (by decide)
  have e2 := @process_chunk_no_open
    ((process_chunk initTP ['A', '<', 't', 'h']).1)
    ['i', 'n', 'k', '>', 'B', '<', '/', 't', 'h', 'i', 'n', 'k', '>', 'C']
    (by rw [e1]; rfl) (by rw [e1]; decide)
  rw [e1] at e2
  have hdec : (['A', '<', 't', 'h', 'i', 'n', 'k', '>', 'B',
       '<', '/', 't', 'h', 'i', 'n', 'k', '>', 'C'] : List Char)
      = ['A'] ++ openTagL ++ ['B'] ++ closeTagL ++ ['C'] := rfl
  rw [feedAll_cons, e1, feedAll_cons, e2, feedAll_nil,
    hdec, process_chunk_one_block rfl rfl (by decide) (by decide) (by decide)]
  decide

/-- **C3 amended**: feeding `"A<th"` then `"ink>B</think>C"` on a freshly
reset splitter yields `visibleText = "A<think>B</think>C"` (the entire input,
tags included) and `reasoningText = ""`: the boundary-split open tag is not
recovered, because no partial-tag tail is carried between calls. -/
theorem c3_amended_boundary_split_not_recovered :
    get_display_content (feedAll initTP
      [['A', '<', 't', 'h'],
       ['i', 'n', 'k', '>', 'B', '<', '/', 't', 'h', 'i', 'n', 'k', '>', 'C']]) =
      ['A', '<', 't', 'h', 'i', 'n', 'k', '>', 'B',
       '<', '/', 't', 'h', 'i', 'n', 'k', '>', 'C'] ∧
    get_complete_thinking (feedAll initTP
      [['A', '<', 't', 'h'],
       ['i', 'n', 'k', '>', 'B', '<', '/', 't', 'h', 'i', 'n', 'k', '>', 'C']]) = [] := by
  have e1 := @process_chunk_no_open initTP ['A', '<', 't', 'h']
    rfl (by decide)
  have e2 := @process_chunk_no_open
    ((process_chunk initTP ['A', '<', 't', 'h']).1)
    ['i', 'n', 'k', '>', 'B', '<', '/', 't', 'h', 'i', 'n', 'k', '>', 'C']
    (by rw [e1]; rfl) (by rw [e1]; decide)
  rw [e1] at e2
  rw [feedAll_cons, e1, feedAll_cons, e2, feedAll_nil]
  constructor <;> rfl

/-- **C9** (confirmed): between `process_chunk` calls (and after `reset`) the
pending buffer is empty, hence contains no complete open or close delimiter:
any complete delimiter in a call's working text is consumed within that call. -/
theorem c9_pending_buffer_invariant (s : TPState) (chunk : List Char) :
    (((process_chunk s chunk).1).buffer = [] ∧
     findTag openTagL ((process_chunk s chunk).1).buffer = none ∧
     findTag closeTagL ((process_chunk s chunk).1).buffer = none) ∧
    ((tpDoReset s).buffer = [] ∧
     findTag openTagL (tpDoReset s).buffer = none ∧
     findTag closeTagL (tpDoReset s).buffer = none) := by
  have hb := process_chunk_buffer s chunk
  have hr1 : findTag openTagL (tpDoReset s).buffer = none := by
    show findTag openTagL [] = none
    decide
  have hr2 : findTag closeTagL (tpDoReset s).buffer = none := by
    show findTag closeTagL [] = none
    decide
  refine ⟨⟨hb, ?_, ?_⟩, rfl, hr1, hr2⟩
  · rw [hb]; decide
  · rw [hb]; decide

/-- The fragment a turn consisting of visible text `p.1` followed by one
complete reasoning block `p.2` produces: `p.1 ++ "<think>" ++ p.2 ++ "</think>"`. -/
def blockChunk (p : List Char × List Char) : List Char :=
  p.1 ++ openTagL ++ p.2 ++ closeTagL

theorem feedAll_blocks :
    ∀ (blocks : List (List Char × List Char)) (s : TPState),
      s.thinking_active = false → s.buffer = [] →
      (∀ p ∈ blocks, '<' ∉ p.1 ∧ '<' ∉ p.2) →
      ∀ lastp, blocks.getLast? = some lastp →
        (feedAll s (blocks.map blockChunk)).complete_thinking = lastp.2 ∧
        (feedAll s (blocks.map blockChunk)).thinking_active = false ∧
        (feedAll s (blocks.map blockChunk)).buffer = [] := by
  intro blocks
  induction blocks with
  | nil => intro s _ _ _ lastp hlast; simp at hlast
  | cons p rest ih =>
    intro s hs hb hclean lastp hlast
    have hp := hclean p (List.mem_cons_self p rest)
    have e1 : process_chunk s (blockChunk p) =
        ({ s with buffer := [], thinking_active := false, thinking_content := p.2,
                  complete_thinking := p.2,
                  visible_content := s.visible_content ++ (p.1 ++ []) },
          ⟨p.2, p.1 ++ [], true, true⟩) := by
      have hrw : blockChunk p = p.1 ++ openTagL ++ p.2 ++ closeTagL ++ [] := by
        simp [blockChunk]
      rw [hrw]
      exact process_chunk_one_block hs hb hp.1 hp.2 (by simp)
    cases rest with
    | nil =>
      have hlp : lastp = p := by simpa using hlast.symm
      subst hlp
      rw [List.map_cons, List.map_nil, feedAll_cons, e1, feedAll_nil]
      exact ⟨rfl, rfl, rfl⟩
    | cons q rest' =>
      have hlast' : (q :: rest').getLast? = some lastp := by
        rw [← List.getLast?_cons_cons (a := p)]; exact hlast
      rw [List.map_cons, feedAll_cons, e1]
      exact ih _ rfl rfl (fun x hx => hclean x (List.mem_cons_of_mem p hx)) lastp hlast'

/-- **C6** (confirmed): for a turn containing two or more complete open/close
reasoning cycles, the accumulated reasoning text after the last close
(`get_complete_thinking`) is the content of the most recently closed block
only — in particular it differs from the concatenation of all blocks whenever
that concatenation differs from the last block. -/
theorem c6_most_recent_block_only
    (blocks : List (List Char × List Char)) (lastp : List Char × List Char)
    (h2 : 2 ≤ blocks.length)
    (hclean : ∀ p ∈ blocks, '<' ∉ p.1 ∧ '<' ∉ p.2)
    (hlast : blocks.getLast? = some lastp) :
    get_complete_thinking (feedAll initTP (blocks.map blockChunk)) = lastp.2 ∧
    ((blocks.map Prod.snd).flatten ≠ lastp.2 →
      get_complete_thinking (feedAll initTP (blocks.map blockChunk)) ≠
        (blocks.map Prod.snd).flatten) := by
  have h := feedAll_blocks blocks initTP rfl rfl hclean lastp hlast
  have h1 : get_complete_thinking (feedAll initTP (blocks.map blockChunk)) = lastp.2 := h.1
  exact ⟨h1, fun hne hc => hne (hc.symm.trans h1)⟩

/-- Witness for C6 at a concrete input: two blocks `B` and `D`; the final
reasoning text is `D`, not `BD`. -/
theorem c6_witness :
    get_complete_thinking (feedAll initTP
      ([(['A'], ['B']), (['C'], ['D'])].map blockChunk)) = ['D'] ∧
    get_complete_thinking (feedAll initTP
      ([(['A'], ['B']), (['C'], ['D'])].map blockChunk)) ≠ ['B', 'D'] := by
  have h := c6_most_recent_block_only [(['A'], ['B']), (['C'], ['D'])]
    (['C'], ['D']) (by decide) (by decide) (by rfl)
  exact ⟨h.1, h.2 (by decide)⟩

/-! ## Pull/push/create streaming progress loops

A decoded line of a pull/push/create stream.  Optional fields mirror key
presence in the decoded JSON dict (`'error' in data` is `error.isSome`;
`data.get('status', 'Unknown')` is `status.getD "Unknown"`).  Empty lines and
lines that fail JSON decoding are skipped by the source loops (`continue`),
so an event list models the decodable lines only. -/
structure PEvent where
  status : Option String
  error : Option String
  completed : Option Nat
  total : Option Nat
  deriving DecidableEq, Repr

/-- What one loop iteration does with its event: keep reading (`next`),
`return completed = True` after the success status (`success`), or
`return False` with the reported reason (`failure`). -/
inductive StreamAct where
  | next
  | success
  | failure (msg : String)
  deriving DecidableEq, Repr

/-- Result of a whole streaming call: terminated with success, terminated
with a reported error, or the stream ended with neither (the source returns
the still-false `completed` flag). -/
inductive StreamOutcome where
  | success
  | failure (msg : String)
  | incomplete
  deriving DecidableEq, Repr

/-- One iteration of `OllamaClient.pull_model`'s event loop (source lines
86–118): the chain of status branches comes FIRST; the `'error' in data`
branch is only reached when the status matches none of the known phases. -/
def pullStep (e : PEvent) : StreamAct :=
  let status := e.status.getD "Unknown"
  if status = "pulling manifest" then .next
  else if status = "downloading" then .next
  else if status = "verifying sha256 digest" then .next
  else if status = "writing manifest" then .next
  else if status = "removing any unused layers" then .next
  else if status = "success" then .success
  else if e.error.isSome then .failure (e.error.getD "Unknown error")
  else .next

/-- One iteration of `OllamaClient.create_model`'s event loop (source lines
169–183): `'error' in data` is checked before the success status. -/
def createStep (e : PEvent) : StreamAct :=
  if e.error.isSome then .failure (e.error.getD "Unknown error")
  else if e.status.getD "Unknown" = "success" then .success
  else .next

/-- One iteration of `OllamaClient.push_model`'s event loop (source lines
215–231): same error-first shape as create; the `pushing`/other branches
only change the displayed label. -/
def pushStep (e : PEvent) : StreamAct :=
  if e.error.isSome then .failure (e.error.getD "Unknown error")
  else if e.status.getD "Unknown" = "success" then .success
  else .next

/-- Drive one streaming call over its decoded lines: `return` inside the loop
stops reading; end of stream without success or error is incomplete. -/
def runStream (step : PEvent → StreamAct) : List PEvent → StreamOutcome
  | [] => .incomplete
  | e :: rest =>
    match step e with
    | .next => runStream step rest
    | .success => .success
    | .failure m => .failure m

/-- The boolean the source functions actually return (`completed`). -/
def outcomeBool : StreamOutcome → Bool
  | .success => true
  | .failure _ => false
  | .incomplete => false

/-- `OllamaClient.pull_model` restricted to its event-sequence behaviour. -/
def pull_model (events : List PEvent) : Bool := outcomeBool (runStream pullStep events)

/-- `OllamaClient.create_model` restricted to its event-sequence behaviour. -/
def create_model (events : List PEvent) : Bool := outcomeBool (runStream createStep events)

/-- `OllamaClient.push_model` restricted to its event-sequence behaviour. -/
def push_model (events : List PEvent) : Bool := outcomeBool (runStream pushStep events)

/-- The percentage computation of the `downloading` branch (source line 95):
`(completed / total) * 100 if total > 0 else 0`, with the float division
modelled over `ℚ`. -/
def pullPercent (completed total : ℕ) : ℚ :=
  if 0 < total then ((completed : ℚ) / (total : ℚ)) * 100 else 0

theorem runStream_cons (step : PEvent → StreamAct) (e : PEvent) (rest : List PEvent) :
    runStream step (e :: rest) =
      match step e with
      | .next => runStream step rest
      | .success => .success
      | .failure m => .failure m := rfl

theorem runStream_append_of_next {step : PEvent → StreamAct} {pre l : List PEvent}
    (h : ∀ x ∈ pre, step x = .next) :
    runStream step (pre ++ l) = runStream step l := by
  induction pre with
  | nil => rfl
  | cons e rest ih =>
    rw [List.cons_append, runStream_cons, h e (List.mem_cons_self e rest)]
    exact ih (fun x hx => h x (List.mem_cons_of_mem e hx))

theorem runStream_all_next {step : PEvent → StreamAct} {l : List PEvent}
    (h : ∀ x ∈ l, step x = .next) : runStream step l = .incomplete := by
  induction l with
  | nil => rfl
  | cons e rest ih =>
    rw [runStream_cons, h e (List.mem_cons_self e rest)]
    exact ih (fun x hx => h x (List.mem_cons_of_mem e hx))

/-! ## Claims about the streaming progress loops -/

/-- **C4 counterexample**: in `pull_model` an event whose `error` field is set
does NOT always make the call fail: the status branches are checked first, so
the single event `{status: "success", error: "x"}` makes the pull return
success, contradicting the claim that an error event yields failure
immediately. -/
theorem c4_error_event_counterexample :
    (⟨some "success", some "x", none, none⟩ : PEvent).error.isSome = true ∧
    runStream pullStep [⟨some "success", some "x", none, none⟩] =
      StreamOutcome.success ∧
    pull_model [⟨some "success", some "x", none, none⟩] = true := by
  refine ⟨rfl, ?_, ?_⟩ <;>
    simp [runStream_cons, pullStep, pull_model, outcomeBool]

/-- **C4 amended**: for create and push, an event with the error field set
makes the call return failure immediately, regardless of what follows; for
pull this holds only when the event's status is not one of the recognised
phase statuses (an event carrying both a recognised status and an error is
handled by the status branch — in particular status `"success"` wins and the
call returns success).  A `"success"` status event stops the call with
success and later lines are not read; a stream that ends with neither
success nor error yields failed/incomplete. -/
theorem c4_amended_stream_outcomes :
    (∀ (pre : List PEvent) (e : PEvent) (rest : List PEvent),
        (∀ x ∈ pre, createStep x = .next) → e.error.isSome = true →
        runStream createStep (pre ++ e :: rest) =
          .failure (e.error.getD "Unknown error")) ∧
    (∀ (pre : List PEvent) (e : PEvent) (rest : List PEvent),
        (∀ x ∈ pre, pushStep x = .next) → e.error.isSome = true →
        runStream pushStep (pre ++ e :: rest) =
          .failure (e.error.getD "Unknown error")) ∧
    (∀ (pre : List PEvent) (e : PEvent) (rest : List PEvent),
        (∀ x ∈ pre, pullStep x = .next) → e.error.isSome = true →
        e.status.getD "Unknown" ∉ (["pulling manifest", "downloading",
          "verifying sha256 digest", "writing manifest",
          "removing any unused layers", "success"] : List String) →
        runStream pullStep (pre ++ e :: rest) =
          .failure (e.error.getD "Unknown error")) ∧
    (∀ (pre : List PEvent) (e : PEvent) (rest : List PEvent),
        (∀ x ∈ pre, pullStep x = .next) →
        e.status.getD "Unknown" = "success" →
        runStream pullStep (pre ++ e :: rest) = .success) ∧
    (∀ (pre : List PEvent) (e : PEvent) (rest : List PEvent),
        (∀ x ∈ pre, createStep x = .next) → e.error = none →
        e.status.getD "Unknown" = "success" →
        runStream createStep (pre ++ e :: rest) = .success) ∧
    (∀ (pre : List PEvent) (e : PEvent) (rest : List PEvent),
        (∀ x ∈ pre, pushStep x = .next) → e.error = none →
        e.status.getD "Unknown" = "success" →
        runStream pushStep (pre ++ e :: rest) = .success) ∧
    (∀ (step : PEvent → StreamAct) (l : List PEvent),
        (∀ x ∈ l, step x = .next) → runStream step l = .incomplete) := by
  refine ⟨?_, ?_, ?_, ?_, ?_, ?_, fun step l h => runStream_all_next h⟩
  · intro pre e rest hpre herr
    rw [runStream_append_of_next hpre, runStream_cons]
    simp [createStep, herr]
  · intro pre e rest hpre herr
    rw [runStream_append_of_next hpre, runStream_cons]
    simp [pushStep, herr]
  · intro pre e rest hpre herr hnot
    rw [runStream_append_of_next hpre, runStream_cons]
    simp only [List.mem_cons, List.mem_singleton, List.not_mem_nil] at hnot
    push_neg at hnot
    obtain ⟨n1, n2, n3, n4, n5, n6⟩ := hnot
    simp [pullStep, herr, n1, n2, n3, n4, n5, n6]
  · intro pre e rest hpre hst
    rw [runStream_append_of_next hpre, runStream_cons]
    have h1 : e.status.getD "Unknown" ≠ "pulling manifest" := by rw [hst]; decide
    have h2 : e.status.getD "Unknown" ≠ "downloading" := by rw [hst]; decide
    have h3 : e.status.getD "Unknown" ≠ "verifying sha256 digest" := by rw [hst]; decide
    have h4 : e.status.getD "Unknown" ≠ "writing manifest" := by rw [hst]; decide
    have h5 : e.status.getD "Unknown" ≠ "removing any unused layers" := by rw [hst]; decide
    simp [pullStep, h1, h2, h3, h4, h5, hst]
  · intro pre e rest hpre herr hst
    rw [runStream_append_of_next hpre, runStream_cons]
    simp [createStep, herr, hst]
  · intro pre e rest hpre herr hst
    rw [runStream_append_of_next hpre, runStream_cons]
    simp [pushStep, herr, hst]

/-- Witness for C4 (amended) at concrete inputs: an error-only event fails all
three calls; a success event succeeds; a downloading-only stream is
incomplete. -/
theorem c4_amended_witness :
    runStream createStep [⟨none, some "x", none, none⟩] = .failure "x" ∧
    runStream pushStep [⟨none, some "x", none, none⟩] = .failure "x" ∧
    runStream pullStep [⟨none, some "x", none, none⟩] = .failure "x" ∧
    runStream pullStep [⟨some "success", none, none, none⟩] = .success ∧
    runStream createStep [⟨some "success", none, none, none⟩] = .success ∧
    runStream pushStep [⟨some "success", none, none, none⟩] = .success ∧
    runStream pullStep [⟨some "downloading", none, some 50, some 200⟩] = .incomplete := by
  obtain ⟨hc, hp, hpl, hpls, hcs, hps, hinc⟩ := c4_amended_stream_outcomes
  refine ⟨hc [] _ [] (by simp) rfl, hp [] _ [] (by simp) rfl,
    hpl [] _ [] (by simp) rfl (by decide),
    hpls [] _ [] (by simp) rfl, hcs [] _ [] (by simp) rfl rfl,
    hps [] _ [] (by simp) rfl rfl,
    hinc pullStep _ ?_⟩
  intro x hx
  simp only [List.mem_singleton] at hx
  subst hx
  decide

/-- **C7** (confirmed): the downloading percentage is
`completed / total * 100` when `total > 0` and `0` when `total = 0` (the
guard avoids division by zero; the float arithmetic of the source is
modelled over `ℚ`); in particular `completed = 50, total = 200` gives `25`. -/
theorem c7_percentage (c t : ℕ) :
    (t = 0 → pullPercent c t = 0) ∧
    (0 < t → pullPercent c t * t = (c : ℚ) * 100) ∧
    pullPercent 50 200 = 25 := by
  refine ⟨?_, ?_, ?_⟩
  · intro h
    simp [pullPercent, h]
  · intro h
    have ht : (t : ℚ) ≠ 0 := by
      have : (0 : ℚ) < t := by exact_mod_cast h
      exact ne_of_gt this
    simp only [pullPercent, if_pos h]
    field_simp
  · norm_num [pullPercent]

/-- Witness for C7 at concrete inputs. -/
theorem c7_percentage_witness :
    pullPercent 0 0 = 0 ∧ pullPercent 50 200 * (200 : ℕ) = (50 : ℚ) * 100 := by
  exact ⟨(c7_percentage 0 0).1 rfl, (c7_percentage 50 200).2.1 (by norm_num)⟩

/-! ## Session history round trip -/

/-- Abstract model of the external Python `datetime` timestamp serialisation
(`datetime.isoformat`, standard library — outside this repository): an
injective textual encoding of a time value.  The session code relies only on
it being decodable back (`fromisoformat_isoformat`), so the exact textual
format is irrelevant; here a time `t` is encoded as `t` copies of `'x'`. -/
def isoformat (ts : Nat) : List Char := List.replicate ts 'x'

/-- Abstract model of `datetime.fromisoformat`: succeeds exactly on
well-formed encodings, recovering the encoded time; raises (here: `none`) on
anything else. -/
def fromisoformat (s : List Char) : Option Nat :=
  if s.all (fun c => c == 'x') then some s.length else none

theorem fromisoformat_isoformat (ts : Nat) : fromisoformat (isoformat ts) = some ts := by
  have h1 : (List.replicate ts 'x').all (fun c => c == 'x') = true := by
    rw [List.all_eq_true]
    intro x hx
    have := List.eq_of_mem_replicate hx
    simp [this]
  simp [fromisoformat, isoformat, h1]

/-- A `ChatMsg` (source lines 33–37): role, content and timestamp. -/
structure ChatMsg where
  role : String
  content : List Char
  ts : Nat
  deriving DecidableEq, Repr

/-- One record of the session file's `history` array
(`{"role": ..., "content": ..., "timestamp": ...}`, source line 1308). -/
structure HistRecord where
  role : String
  content : List Char
  timestamp : List Char
  deriving DecidableEq, Repr

/-- `cmd_save`'s history serialisation (source line 1308). -/
def saveHistory (history : List ChatMsg) : List HistRecord :=
  history.map (fun m => ⟨m.role, m.content, isoformat m.ts⟩)

/-- `cmd_load`'s history deserialisation (source lines 1352–1359): parse the
timestamp; if parsing raises, reconstruct the message with the current time
(the `ChatMsg` dataclass default). -/
def loadHistory (now : Nat) (recs : List HistRecord) : List ChatMsg :=
  recs.map (fun r =>
    match fromisoformat r.timestamp with
    | some t => ⟨r.role, r.content, t⟩
    | none => ⟨r.role, r.content, now⟩)

/-- **C8** (confirmed): serialising a history to the session-file shape and
deserialising it reproduces the messages (hence the role/content pairs, in
order); and a record whose timestamp fails to parse still deserialises, with
the current time substituted, rather than raising or being dropped. -/
theorem c8_history_round_trip :
    (∀ (history : List ChatMsg) (now : Nat),
        loadHistory now (saveHistory history) = history ∧
        (loadHistory now (saveHistory history)).map (fun m => (m.role, m.content)) =
          history.map (fun m => (m.role, m.content))) ∧
    (∀ (r : HistRecord) (now : Nat), fromisoformat r.timestamp = none →
        loadHistory now [r] = [⟨r.role, r.content, now⟩]) := by
  constructor
  · intro history now
    have h : ∀ (hist : List ChatMsg), loadHistory now (saveHistory hist) = hist := by
      intro hist
      induction hist with
      | nil => rfl
      | cons m rest ih =>
        simp only [saveHistory, List.map_cons, loadHistory] at *
        rw [fromisoformat_isoformat]
        cases m
        simp [ih]
    exact ⟨h history, by rw [h history]⟩
  · intro r now h
    simp [loadHistory, h]

/-- Witness for C8 at concrete inputs: a one-message history round-trips, and
a record with the unparsable timestamp `"bad"` still loads with the
substituted time. -/
theorem c8_history_round_trip_witness :
    loadHistory 7 (saveHistory [⟨"user", ['h', 'i'], 3⟩]) = [⟨"user", ['h', 'i'], 3⟩] ∧
    loadHistory 7 [⟨"assistant", ['y', 'o'], ['b', 'a', 'd']⟩] =
      [⟨"assistant", ['y', 'o'], 7⟩] :=
  ⟨(c8_history_round_trip.1 [⟨"user", ['h', 'i'], 3⟩] 7).1,
   c8_history_round_trip.2 ⟨"assistant", ['y', 'o'], ['b', 'a', 'd']⟩ 7 (by decide)⟩

/-! ## Chat streaming and the chat session loop -/

/-- A decoded line of the `/api/chat` stream (source lines 280–296).
`error`/`content` model key presence (`"error" in data`, a `"message"`
envelope with `"content"`); `extra` models the remaining truthy fields the
verbose loop echoes (already JSON-encoded); `done` is `data.get("done")`. -/
structure ChatEvent where
  error : Option (List Char)
  content : Option (List Char)
  extra : List (List Char × List Char)
  done : Bool
  deriving DecidableEq, Repr

/-- `"\n[ERROR]"` — the prefix `_send_message` tests with `startswith`
(source line 1442); the error chunks of `chat_stream` extend it with `": "`. -/
def errTag : List Char := ['\n', '[', 'E', 'R', 'R', 'O', 'R', ']']

/-- `"[DEBUG"` — the prefix tested at source line 1438. -/
def debugTag : List Char := ['[', 'D', 'E', 'B', 'U', 'G']

/-- `OllamaClient.chat_stream` (source lines 274–297) as a function from the
decoded event sequence to the sequence of yielded strings: an error event
yields a single `"\n[ERROR]: ..."` chunk and stops; otherwise the message
content (if any) is yielded, then (verbose only) one `"[DEBUG k]: v"` chunk
per extra field, and a truthy `done` stops the stream. -/
def chatStreamChunks (verbose : Bool) : List ChatEvent → List (List Char)
  | [] => []
  | e :: rest =>
    match e.error with
    | some m => [errTag ++ (':' :: ' ' :: m)]
    | none =>
      (match e.content with
       | some c => [c]
       | none => []) ++
      (if verbose then
        e.extra.map (fun kv => debugTag ++ (' ' :: kv.1) ++ (']' :: ':' :: ' ' :: kv.2))
       else []) ++
      (if e.done then [] else chatStreamChunks verbose rest)

/-- Python `s.replace(old, "")` as used at source line 1476 (left-to-right,
non-overlapping; an empty pattern leaves the string unchanged). -/
def removeAll (old : List Char) (s : List Char) : List Char :=
  if hold : old = [] then s
  else
    match s with
    | [] => []
    | c :: rest =>
      if old.isPrefixOf (c :: rest) then removeAll old ((c :: rest).drop old.length)
      else c :: removeAll old rest
  termination_by s.length
  decreasing_by
  · have h1 : 1 ≤ old.length := by
      cases old with
      | nil => exact absurd rfl hold
      | cons a t => simp
    simp only [List.length_drop, List.length_cons]
    omega
  · simp only [List.length_cons]
    omega

/-- The local state of `_send_message`'s streaming loop (source lines
1427–1471): the splitter, `collected_response`, `is_thinking_model`, and
which of the two `break`s (error chunk / cleared `streaming` flag) fired. -/
structure SendSt where
  tp : TPState
  collected : List Char
  is_thinking_model : Bool
  brokeOnError : Bool
  cancelled : Bool
  deriving DecidableEq, Repr

def initSendSt : SendSt := ⟨initTP, [], false, false, false⟩

/-- The `for chunk in chat_stream(...)` loop of `_send_message` (source lines
1434–1471).  Cancellation (`self.streaming` cleared by the SIGINT handler,
source lines 445–449, observed at line 1435 before each chunk) is modelled by
an optional countdown: `some k` means the flag is first observed cleared
before processing chunk `k`.  With verbose on, `[DEBUG`-prefixed chunks are
echoed and skipped; a `\n[ERROR]`-prefixed chunk is displayed and breaks the
loop; otherwise the chunk goes through the splitter when thinking mode is on
(passes through verbatim when off) and `new_visible` is appended to
`collected_response`. -/
def sendLoop (verbose thinkMode : Bool) :
    Option Nat → SendSt → List (List Char) → SendSt
  | _, st, [] => st
  | cancel, st, chunk :: rest =>
    if cancel = some 0 then { st with cancelled := true }
    else
      let cancel' := cancel.map (· - 1)
      if verbose && debugTag.isPrefixOf chunk then
        sendLoop verbose thinkMode cancel' st rest
      else if errTag.isPrefixOf chunk then
        { st with brokeOnError := true }
      else
        let pr := if thinkMode then process_chunk st.tp chunk
                  else (st.tp, ⟨[], chunk, false, false⟩)
        sendLoop verbose thinkMode cancel'
          { st with
            tp := pr.1,
            is_thinking_model := st.is_thinking_model || (thinkMode && pr.2.started),
            collected := if pr.2.new_visible.isEmpty then st.collected
                         else st.collected ++ pr.2.new_visible }
          rest

/-- The post-loop fixup of `_send_message` (source lines 1473–1479): for a
thinking model, if the splitter's full visible text differs from the
collected response and removing the collected text from it leaves something,
the collected response is replaced by the full visible text. -/
def sendFinish (thinkMode : Bool) (st : SendSt) : List Char :=
  if st.is_thinking_model && thinkMode then
    let final_response := get_display_content st.tp
    if final_response ≠ [] ∧ final_response ≠ st.collected then
      let remaining := removeAll st.collected final_response
      if remaining ≠ [] then final_response else st.collected
    else st.collected
  else st.collected

/-- The observable outcome of one `_send_message` call: the history after the
call, which break fired, and the `streaming`/`loading` flags (reset in the
`finally` block, source lines 1489–1491, returning the loop to idle). -/
structure SendResult where
  history : List ChatMsg
  brokeOnError : Bool
  cancelled : Bool
  streaming : Bool
  loading : Bool
  deriving DecidableEq, Repr

/-- `CLI._send_message` (source lines 1409–1492), given the decoded event
stream of the turn: append the user message (line 1414), consume the chunks
of `chat_stream`, and — whatever way the loop ended — append an assistant
message whenever the collected response is non-empty (lines 1482–1483).
`now` stands for `datetime.now()` in the appended messages. -/
def sendMessage (verbose thinkMode : Bool) (cancelAt : Option Nat)
    (history0 : List ChatMsg) (now : Nat) (message : List Char)
    (events : List ChatEvent) : SendResult :=
  let history1 := history0 ++ [⟨"user", message, now⟩]
  let chunks := chatStreamChunks verbose events
  let st := sendLoop verbose thinkMode cancelAt initSendSt chunks
  let collected := sendFinish thinkMode st
  { history := if collected.isEmpty then history1
               else history1 ++ [⟨"assistant", collected, now⟩],
    brokeOnError := st.brokeOnError,
    cancelled := st.cancelled,
    streaming := false,
    loading := false }

/-! ### Lemmas about the chat stream and the session loop -/

theorem isPrefixOf_append_self (l t : List Char) : l.isPrefixOf (l ++ t) = true := by
  simp [isPrefixOf_true_iff]

theorem append_if_isEmpty (c l : List Char) :
    (if l.isEmpty then c else c ++ l) = c ++ l := by
  cases l <;> simp

theorem append_if_eq_nil (c l : List Char) :
    (if l = [] then c else c ++ l) = c ++ l := by
  cases l <;> simp

theorem chatStreamChunks_error_cons {e : ChatEvent} {m : List Char}
    (rest : List ChatEvent) (v : Bool) (he : e.error = some m) :
    chatStreamChunks v (e :: rest) = [errTag ++ (':' :: ' ' :: m)] := by
  simp [chatStreamChunks, he]

theorem chatStreamChunks_plain {pre l : List ChatEvent}
    (h : ∀ e ∈ pre, e.error = none ∧ e.done = false) :
    chatStreamChunks false (pre ++ l) =
      pre.filterMap ChatEvent.content ++ chatStreamChunks false l := by
  induction pre with
  | nil => simp
  | cons e rest ih =>
    have he := h e (List.mem_cons_self e rest)
    have ih' := ih (fun x hx => h x (List.mem_cons_of_mem e hx))
    rw [List.cons_append]
    cases hc : e.content with
    | none =>
      simp [chatStreamChunks, he.1, he.2, hc, List.filterMap_cons, ih']
    | some c =>
      simp [chatStreamChunks, he.1, he.2, hc, List.filterMap_cons, ih']

/-- One loop iteration on a tag-free, non-error chunk, not yet cancelled:
the chunk passes through to `collected` (and to the splitter's visible text
when thinking mode is on). -/
theorem sendLoop_step_plain (tm : Bool) (cancel : Option Nat) (st : SendSt)
    (ch : List Char) (rest : List (List Char))
    (hcz : ¬ cancel = some 0)
    (hact : st.tp.thinking_active = false) (hbuf : st.tp.buffer = [])
    (hlt : '<' ∉ ch) (herr : errTag.isPrefixOf ch = false) :
    sendLoop false tm cancel st (ch :: rest) =
      sendLoop false tm (cancel.map (· - 1))
        { st with
          tp := { st.tp with
                  visible_content := st.tp.visible_content ++
                    (if tm then ch else []) },
          collected := st.collected ++ ch } rest := by
  obtain ⟨⟨act, buf, tc, vc, ct⟩, col, itm, brk, cnc⟩ := st
  dsimp only at hact hbuf
  subst hact; subst hbuf
  cases tm with
  | false =>
    simp [sendLoop, hcz, herr, append_if_isEmpty, append_if_eq_nil]
  | true =>
    have hpc := @process_chunk_no_open ⟨false, [], tc, vc, ct⟩ ch
      rfl (by simpa using findTag_open_none hlt)
    simp only [List.nil_append] at hpc
    simp [sendLoop, hcz, herr, append_if_isEmpty, append_if_eq_nil, hpc]

/-- Running the loop over tag-free non-error chunks followed by an
error-prefixed chunk: the loop breaks on the error chunk with all the
preceding visible text collected. -/
theorem sendLoop_plain_error (tm : Bool) :
    ∀ (plain : List (List Char)) (st : SendSt) (ec : List Char),
      (∀ ch ∈ plain, '<' ∉ ch ∧ errTag.isPrefixOf ch = false) →
      st.tp.thinking_active = false → st.tp.buffer = [] →
      errTag.isPrefixOf ec = true →
      (sendLoop false tm none st (plain ++ [ec])).brokeOnError = true ∧
      (sendLoop false tm none st (plain ++ [ec])).cancelled = st.cancelled ∧
      (sendLoop false tm none st (plain ++ [ec])).is_thinking_model =
        st.is_thinking_model ∧
      (sendLoop false tm none st (plain ++ [ec])).collected =
        st.collected ++ plain.flatten := by
  intro plain
  induction plain with
  | nil =>
    intro st ec _ _ _ hec
    refine ⟨?_, ?_, ?_, ?_⟩ <;> simp [sendLoop, hec]
  | cons ch rest ih =>
    intro st ec hch hact hbuf hec
    have hc := hch ch (List.mem_cons_self ch rest)
    rw [List.cons_append,
      sendLoop_step_plain tm none st ch (rest ++ [ec]) (by simp) hact hbuf hc.1 hc.2]
    simp only [Option.map_none']
    have hres := ih { st with
        tp := { st.tp with visible_content := st.tp.visible_content ++
          (if tm then ch else []) },
        collected := st.collected ++ ch } ec
      (fun x hx => hch x (List.mem_cons_of_mem ch hx))
      (by exact hact) (by exact hbuf) hec
    refine ⟨hres.1, ?_, ?_, ?_⟩
    · rw [hres.2.1]
    · rw [hres.2.2.1]
    · rw [hres.2.2.2]
      simp

/-- Running the loop over tag-free non-error chunks with the cancellation
flag observed cleared before chunk `k` (`k` within the stream): the loop
stops there, having collected exactly the first `k` chunks. -/
theorem sendLoop_plain_cancel (tm : Bool) :
    ∀ (plain : List (List Char)) (k : Nat) (st : SendSt),
      (∀ ch ∈ plain, '<' ∉ ch ∧ errTag.isPrefixOf ch = false) →
      st.tp.thinking_active = false → st.tp.buffer = [] →
      k < plain.length →
      (sendLoop false tm (some k) st plain).cancelled = true ∧
      (sendLoop false tm (some k) st plain).brokeOnError = st.brokeOnError ∧
      (sendLoop false tm (some k) st plain).is_thinking_model =
        st.is_thinking_model ∧
      (sendLoop false tm (some k) st plain).collected =
        st.collected ++ (plain.take k).flatten := by
  intro plain
  induction plain with
  | nil =>
    intro k st _ _ _ hk
    simp at hk
  | cons ch rest ih =>
    intro k st hch hact hbuf hk
    have hc := hch ch (List.mem_cons_self ch rest)
    cases k with
    | zero =>
      refine ⟨?_, ?_, ?_, ?_⟩ <;> simp [sendLoop]
    | succ k' =>
      rw [sendLoop_step_plain tm (some (k' + 1)) st ch rest (by simp) hact hbuf
        hc.1 hc.2]
      simp only [Option.map_some', Nat.add_sub_cancel]
      have hres := ih k' { st with
          tp := { st.tp with visible_content := st.tp.visible_content ++
            (if tm then ch else []) },
          collected := st.collected ++ ch }
        (fun x hx => hch x (List.mem_cons_of_mem ch hx))
        (by exact hact) (by exact hbuf) (by simpa using hk)
      refine ⟨hres.1, ?_, ?_, ?_⟩
      · rw [hres.2.1]
      · rw [hres.2.2.1]
      · rw [hres.2.2.2]
        simp

theorem sendFinish_not_thinking {tm : Bool} {st : SendSt}
    (h : st.is_thinking_model = false) : sendFinish tm st = st.collected := by
  simp [sendFinish, h]

/-! ## Claims about the chat session loop -/

/-- **C1 counterexample**: a turn whose stream yields a visible fragment and
then an error event DOES append a partial assistant message: the
`if collected_response:` append at source lines 1482–1483 runs after the
error `break` too, so the fragments received before the error are persisted
as an assistant entry, contradicting the claim that the turn is abandoned
with no assistant entry. -/
theorem c1_error_partial_appended_counterexample :
    (sendMessage false false none [] 0 ['h', 'i']
      [⟨none, some ['H', 'e', 'l', 'l', 'o'], [], false⟩,
       ⟨some ['b', 'o', 'o', 'm'], none, [], false⟩]).brokeOnError = true ∧
    (sendMessage false false none [] 0 ['h', 'i']
      [⟨none, some ['H', 'e', 'l', 'l', 'o'], [], false⟩,
       ⟨some ['b', 'o', 'o', 'm'], none, [], false⟩]).history =
      [⟨"user", ['h', 'i'], 0⟩, ⟨"assistant", ['H', 'e', 'l', 'l', 'o'], 0⟩] := by
  decide

/-- **C1 amended**: on an error event the loop stops reading (events after
the error never affect the outcome), the error break is taken, and the
history receives the user's message — but the visible fragments received
before the error are still appended as an assistant message whenever they
are non-empty; only a turn with no visible output before the error leaves no
assistant entry. -/
theorem c1_amended_error_turn (tm : Bool) (history0 : List ChatMsg)
    (now : Nat) (message m : List Char) (pre post : List ChatEvent)
    (hpre : ∀ e ∈ pre, e.error = none ∧ e.done = false)
    (hcont : ∀ e ∈ pre, ∀ c, e.content = some c →
      '<' ∉ c ∧ errTag.isPrefixOf c = false) :
    (sendMessage false tm none history0 now message
        (pre ++ ⟨some m, none, [], false⟩ :: post)).history =
      history0 ++ ⟨"user", message, now⟩ ::
        (if (pre.filterMap ChatEvent.content).flatten = [] then []
         else [⟨"assistant", (pre.filterMap ChatEvent.content).flatten, now⟩]) ∧
    (sendMessage false tm none history0 now message
        (pre ++ ⟨some m, none, [], false⟩ :: post)).brokeOnError = true ∧
    (sendMessage false tm none history0 now message
        (pre ++ ⟨some m, none, [], false⟩ :: post)).cancelled = false ∧
    (sendMessage false tm none history0 now message
        (pre ++ ⟨some m, none, [], false⟩ :: post)).streaming = false ∧
    (sendMessage false tm none history0 now message
        (pre ++ ⟨some m, none, [], false⟩ :: post)).loading = false := by
  have hchunks : chatStreamChunks false (pre ++ ⟨some m, none, [], false⟩ :: post) =
      pre.filterMap ChatEvent.content ++ [errTag ++ (':' :: ' ' :: m)] := by
    rw [chatStreamChunks_plain hpre, chatStreamChunks_error_cons post false rfl]
  have hplain : ∀ ch ∈ pre.filterMap ChatEvent.content,
      '<' ∉ ch ∧ errTag.isPrefixOf ch = false := by
    intro ch hch
    rw [List.mem_filterMap] at hch
    obtain ⟨e, he, hce⟩ := hch
    exact hcont e he ch hce
  have hloop := sendLoop_plain_error tm (pre.filterMap ChatEvent.content)
    initSendSt (errTag ++ (':' :: ' ' :: m)) hplain rfl rfl
    (isPrefixOf_append_self errTag _)
  unfold sendMessage
  dsimp only
  rw [hchunks]
  have hfin : sendFinish tm (sendLoop false tm none initSendSt
      (pre.filterMap ChatEvent.content ++ [errTag ++ (':' :: ' ' :: m)])) =
      (pre.filterMap ChatEvent.content).flatten := by
    rw [sendFinish_not_thinking (by rw [hloop.2.2.1]; rfl), hloop.2.2.2]
    rfl
  rw [hfin]
  refine ⟨?_, hloop.1, by rw [hloop.2.1]; rfl, rfl, rfl⟩
  by_cases hV : (pre.filterMap ChatEvent.content).flatten = []
  · simp [hV]
  · simp [hV, List.isEmpty_iff]

/-- Witness for C1 (amended) at a concrete input: fragment `"Hel"` then error
`"bm"`: the turn breaks on the error but history still gains the partial
assistant message `"Hel"`. -/
theorem c1_amended_witness :
    (sendMessage false true none [] 0 ['h', 'i']
      ([⟨none, some ['H', 'e', 'l'], [], false⟩] ++
        ⟨some ['b', 'm'], none, [], false⟩ :: [])).history =
      [⟨"user", ['h', 'i'], 0⟩, ⟨"assistant", ['H', 'e', 'l'], 0⟩] ∧
    (sendMessage false true none [] 0 ['h', 'i']
      ([⟨none, some ['H', 'e', 'l'], [], false⟩] ++
        ⟨some ['b', 'm'], none, [], false⟩ :: [])).brokeOnError = true := by
  have h := c1_amended_error_turn true [] 0 ['h', 'i'] ['b', 'm']
    [⟨none, some ['H', 'e', 'l'], [], false⟩] []
    (by intro e he; simp at he; subst he; exact ⟨rfl, rfl⟩)
    (by
      intro e he c hc
      simp at he
      subst he
      simp at hc
      subst hc
      exact ⟨by decide, by decide⟩)
  refine ⟨?_, h.2.1⟩
  have h1 := h.1
  simpa using h1

/-- **C2 counterexample**: a turn cancelled mid-stream after one visible
fragment DOES append an assistant message: the cancellation `break` at source
lines 1435–1436 falls through to the `if collected_response:` append at lines
1482–1483, so the partial response `"Hi"` is persisted, contradicting the
claim that no assistant message is appended for a cancelled turn. -/
theorem c2_cancel_partial_appended_counterexample :
    (sendMessage false false (some 1) [] 0 ['h', 'i']
      [⟨none, some ['H', 'i'], [], false⟩,
       ⟨none, some ['y', 'o'], [], false⟩]).cancelled = true ∧
    (sendMessage false false (some 1) [] 0 ['h', 'i']
      [⟨none, some ['H', 'i'], [], false⟩,
       ⟨none, some ['y', 'o'], [], false⟩]).history =
      [⟨"user", ['h', 'i'], 0⟩, ⟨"assistant", ['H', 'i'], 0⟩] := by
  decide

/-- **C2 amended**: a user interrupt mid-stream stops the loop from reading
further chunks and returns the loop to idle (`streaming`/`loading` reset),
but the partial visible response collected before the cancellation IS
appended to history as an assistant message whenever it is non-empty; only a
turn cancelled before any visible output leaves no assistant entry. -/
theorem c2_amended_cancel_turn (tm : Bool) (history0 : List ChatMsg)
    (now : Nat) (message : List Char) (events : List ChatEvent) (k : Nat)
    (hev : ∀ e ∈ events, e.error = none ∧ e.done = false)
    (hcont : ∀ e ∈ events, ∀ c, e.content = some c →
      '<' ∉ c ∧ errTag.isPrefixOf c = false)
    (hk : k < (events.filterMap ChatEvent.content).length) :
    (sendMessage false tm (some k) history0 now message events).history =
      history0 ++ ⟨"user", message, now⟩ ::
        (if ((events.filterMap ChatEvent.content).take k).flatten = [] then []
         else [⟨"assistant",
                ((events.filterMap ChatEvent.content).take k).flatten, now⟩]) ∧
    (sendMessage false tm (some k) history0 now message events).cancelled = true ∧
    (sendMessage false tm (some k) history0 now message events).brokeOnError = false ∧
    (sendMessage false tm (some k) history0 now message events).streaming = false ∧
    (sendMessage false tm (some k) history0 now message events).loading = false := by
  have hchunks : chatStreamChunks false events = events.filterMap ChatEvent.content := by
    have h := chatStreamChunks_plain (l := []) hev
    have hnil : chatStreamChunks false [] = [] := rfl
    simpa [hnil] using h
  have hplain : ∀ ch ∈ events.filterMap ChatEvent.content,
      '<' ∉ ch ∧ errTag.isPrefixOf ch = false := by
    intro ch hch
    rw [List.mem_filterMap] at hch
    obtain ⟨e, he, hce⟩ := hch
    exact hcont e he ch hce
  have hloop := sendLoop_plain_cancel tm (events.filterMap ChatEvent.content) k
    initSendSt hplain rfl rfl hk
  unfold sendMessage
  dsimp only
  rw [hchunks]
  have hfin : sendFinish tm (sendLoop false tm (some k) initSendSt
      (events.filterMap ChatEvent.content)) =
      ((events.filterMap ChatEvent.content).take k).flatten := by
    rw [sendFinish_not_thinking (by rw [hloop.2.2.1]; rfl), hloop.2.2.2]
    rfl
  rw [hfin]
  refine ⟨?_, hloop.1, by rw [hloop.2.1]; rfl, rfl, rfl⟩
  by_cases hV : ((events.filterMap ChatEvent.content).take k).flatten = []
  · simp [hV]
  · simp [hV, List.isEmpty_iff]

/-- Witness for C2 (amended) at a concrete input: two fragments, cancellation
observed before the second: the turn is cancelled, yet history gains the
partial assistant message `"Hi"`. -/
theorem c2_amended_witness :
    (sendMessage false true (some 1) [] 0 ['h', 'i']
      [⟨none, some ['H', 'i'], [], false⟩,
       ⟨none, some ['y', 'o'], [], false⟩]).history =
      [⟨"user", ['h', 'i'], 0⟩, ⟨"assistant", ['H', 'i'], 0⟩] ∧
    (sendMessage false true (some 1) [] 0 ['h', 'i']
      [⟨none, some ['H', 'i'], [], false⟩,
       ⟨none, some ['y', 'o'], [], false⟩]).cancelled = true := by
  have h := c2_amended_cancel_turn true [] 0 ['h', 'i']
    [⟨none, some ['H', 'i'], [], false⟩, ⟨none, some ['y', 'o'], [], false⟩] 1
    (by intro e he; simp at he; rcases he with he | he <;> (subst he; exact ⟨rfl, rfl⟩))
    (by
      intro e he c hc
      simp at he
      rcases he with he | he <;>
        (subst he; simp at hc; subst hc; exact ⟨by decide, by decide⟩))
    (by decide)
  refine ⟨?_, h.2.1⟩
  have h1 := h.1
  simpa using h1

/-- **C10** (confirmed): `chat_stream` signals daemon errors in-band as
ordinary yielded strings prefixed `"\n[ERROR]: "`, and the session loop
aborts the turn on any chunk starting with `"\n[ERROR]"`; consequently a
message fragment whose content is the very string an error event would
produce yields an identical chunk sequence, and a fragment beginning with
`"\n[ERROR]"` terminates the turn (error break taken, no assistant entry)
even though no error event occurred. -/
theorem c10_inband_error_ambiguity :
    (∀ (v : Bool) (m : List Char) (rest : List ChatEvent),
        chatStreamChunks v ((⟨some m, none, [], false⟩ : ChatEvent) :: rest) =
          [errTag ++ (':' :: ' ' :: m)]) ∧
    chatStreamChunks false
        [⟨none, some (errTag ++ (':' :: ' ' :: ['b', 'o', 'o', 'm'])), [], false⟩] =
      chatStreamChunks false [⟨some ['b', 'o', 'o', 'm'], none, [], false⟩] ∧
    (sendMessage false true none [] 0 ['h', 'i']
      [⟨none, some (errTag ++ (':' :: ' ' :: ['b', 'o', 'o', 'm'])), [], false⟩,
       ⟨none, some ['r', 'e', 's', 't'], [], false⟩]).brokeOnError = true ∧
    (sendMessage false true none [] 0 ['h', 'i']
      [⟨none, some (errTag ++ (':' :: ' ' :: ['b', 'o', 'o', 'm'])), [], false⟩,
       ⟨none, some ['r', 'e', 's', 't'], [], false⟩]).history =
      [⟨"user", ['h', 'i'], 0⟩] := by
  refine ⟨fun v m rest => rfl, rfl, ?_, ?_⟩ <;> decide

end MatOllama
